import Mathlib

/-!
Verification of the `FileManager` store and ZIP export of the
`package_factory` repository.

This file gives a shallow embedding of the `FileManager` class of
`src/main.py` and proves/refutes the frozen claims about it.

Modelling conventions:

* A Python `str` is a finite sequence of Unicode code points (including,
  unlike Lean's `String`, lone surrogates).  We model it as `List Nat`
  (`PyStr`), each element a code point.
* `FileManager.files` is a Python `dict`.  A `dict` is modelled as an
  insertion-ordered association list with (invariantly) distinct keys:
  assignment to a present key overwrites in place, assignment to an absent
  key appends at the end, `del` removes the entry, and iteration follows
  the list order.  The well-formedness predicate `WF` states key
  distinctness, which every reachable `dict` satisfies.
* Methods that mutate `self.files` return the new store explicitly;
  methods returning a value return it paired with the store.
* `create_zip` writes each entry with `zipfile.ZipFile.writestr`.  Per
  CPython's `zipfile`: the content string is encoded to UTF-8 first
  (raising `UnicodeEncodeError` on a lone surrogate), the entry name is
  the path truncated at its first NUL byte (`ZipInfo.__init__` /
  `sanitize_filename`), an empty sanitized name raises a bare
  `IndexError` at the `zinfo.filename[-1]` directory test, and the
  (sanitized) name itself must be UTF-8 encodable (ASCII attempt, then
  UTF-8, in `_encodeFilenameFlags`).
  DEFLATE compression is lossless, so the archive is modelled at the
  entry level: a successful export is the list of (entry name, entry
  bytes) pairs in the order written, which is exactly what a standard
  archive reader recovers after decompression.
-/

/-- A Python string: a list of Unicode code points (may contain lone
surrogates, which Lean's `String` cannot represent). -/
abbrev PyStr := List Nat

/-- A byte sequence. -/
abbrev Bytes := List Nat

/-- UTF-8 encoding of one code point, as Python's strict `utf-8` codec does
it: surrogates (U+D800..U+DFFF) and values above U+10FFFF are rejected. -/
def utf8EncodeChar (c : Nat) : Option Bytes :=
  if c < 0x80 then some [c]
  else if c < 0x800 then some [0xC0 + c / 0x40, 0x80 + c % 0x40]
  else if c < 0xE000 ∧ 0xD800 ≤ c then none
  else if c < 0x10000 then
    some [0xE0 + c / 0x1000, 0x80 + c / 0x40 % 0x40, 0x80 + c % 0x40]
  else if c < 0x110000 then
    some [0xF0 + c / 0x40000, 0x80 + c / 0x1000 % 0x40,
          0x80 + c / 0x40 % 0x40, 0x80 + c % 0x40]
  else none

/-- Python `s.encode("utf-8")` with strict error handling: fails iff some code
point is unencodable, otherwise the concatenation of the per-code-point
encodings. -/
def utf8Encode : PyStr → Option Bytes
  | [] => some []
  | c :: cs =>
    match utf8EncodeChar c, utf8Encode cs with
    | some b, some bs => some (b ++ bs)
    | _, _ => none

/-- CPython `zipfile` sanitization of an archive member name: the name is
truncated at the first NUL code point (`ZipInfo.__init__`; on POSIX the
`os.sep` replacement is a no-op). -/
def truncAtNul : PyStr → PyStr
  | [] => []
  | c :: cs => if c = 0 then [] else c :: truncAtNul cs

/-- The state of `FileManager.files`: a Python `dict` from path to content,
as an insertion-ordered association list. -/
abbrev Store := List (PyStr × PyStr)

/-- The key sequence of the dict, in insertion (iteration) order. -/
def keys (m : Store) : List PyStr := m.map Prod.fst

/-- Well-formedness of a `dict` model: keys are distinct.  Every store
reachable through the `FileManager` operations from the empty store
satisfies this. -/
def WF (m : Store) : Prop := (keys m).Nodup

instance (m : Store) : Decidable (WF m) :=
  inferInstanceAs (Decidable ((keys m).Nodup))

/-- Python `dict` lookup: `self.files.get(path)` / `self.files[path]`, returning
the value at the first (and, under `WF`, only) matching key. -/
def dictGet? (k : PyStr) : Store → Option PyStr
  | [] => none
  | (k', v) :: rest => if k' = k then some v else dictGet? k rest

/-- Python `dict` assignment `self.files[k] = v`: overwrite in place if the key is
present, otherwise append the new entry at the end. -/
def dictSet (k v : PyStr) : Store → Store
  | [] => [(k, v)]
  | (k', v') :: rest =>
    if k' = k then (k, v) :: rest else (k', v') :: dictSet k v rest

/-- Python `del self.files[k]`: remove the (first) entry with key `k`. -/
def dictRemove (k : PyStr) : Store → Store
  | [] => []
  | (k', v') :: rest =>
    if k' = k then rest else (k', v') :: dictRemove k rest

/-- Model of `FileManager.add_file(path, content)`: `self.files[path] = content`. -/
def add_file (path content : PyStr) (m : Store) : Store :=
  dictSet path content m

/-- Model of `FileManager.get_file(path)`: `self.files.get(path, '')`. -/
def get_file (path : PyStr) (m : Store) : PyStr :=
  (dictGet? path m).getD []

/-- Model of `FileManager.update_file(path, content)`: writes only if
`path in self.files`, and reports whether it did.  Returns the result
paired with the store after the call. -/
def update_file (path content : PyStr) (m : Store) : Bool × Store :=
  if (dictGet? path m).isSome then (true, dictSet path content m)
  else (false, m)

/-- Model of `FileManager.delete_file(path)`: `del` only if `path in self.files`,
and reports whether it did.  Returns the result paired with the store
after the call. -/
def delete_file (path : PyStr) (m : Store) : Bool × Store :=
  if (dictGet? path m).isSome then (true, dictRemove path m)
  else (false, m)

/-- Python `<=` on strings: lexicographic comparison of the code-point
sequences (a proper prefix is smaller). -/
def pyStrLe : PyStr → PyStr → Bool
  | [], _ => true
  | _ :: _, [] => false
  | a :: s, b :: t =>
    if a < b then true
    else if b < a then false
    else pyStrLe s t

/-- Relation form of `pyStrLe`, for use with `List.insertionSort` and
`List.Sorted`. -/
def pathLe (a b : PyStr) : Prop := pyStrLe a b = true

instance : DecidableRel pathLe :=
  fun a b => inferInstanceAs (Decidable (pyStrLe a b = true))

/-- Model of `FileManager.get_all_files()`: `sorted(self.files.keys())`.  Python's
`sorted` orders the (distinct) keys by `<` on strings; any comparison sort
agrees on them, so we model it with insertion sort under `pathLe`. -/
def get_all_files (m : Store) : List PyStr :=
  List.insertionSort pathLe (keys m)

/-- The errors a `writestr` call can raise.  `indexError` is the bare
`IndexError: string index out of range` from `zinfo.filename[-1]` when the
sanitized member name is empty; it carries no information about the entry.
`unicodeEncodeError` is a `UnicodeEncodeError` carrying the string that
could not be encoded (for a content failure, the content — never the
archive path of the entry). -/
inductive ZipErr where
  | indexError : ZipErr
  | unicodeEncodeError (offender : PyStr) : ZipErr
deriving DecidableEq

/-- The string payload of an error, if any: what the raised exception
reports about the offending data.  The `IndexError` names nothing; the
`UnicodeEncodeError` names the string it failed to encode. -/
def errOffender : ZipErr → Option PyStr
  | .indexError => none
  | .unicodeEncodeError s => some s

/-- One archive entry: the (sanitized) member name and the decompressed
member bytes. -/
abbrev ZipEntry := PyStr × Bytes

/-- Model of `zf.writestr(path, content)`, following CPython's statement
order: encode the content to UTF-8 (first thing `writestr` does to a
`str`); build the `ZipInfo`, sanitizing the name (NUL truncation in
`ZipInfo.__init__`); test `zinfo.filename[-1] == '/'`, which raises a bare
`IndexError` when the sanitized name is empty; finally require the
sanitized name to be UTF-8 encodable (`_encodeFilenameFlags` when the
header is written).  DEFLATE being lossless, the entry is modelled by its
name and decompressed bytes. -/
def writestrEntry (path content : PyStr) : Except ZipErr ZipEntry :=
  match utf8Encode content with
  | none => .error (.unicodeEncodeError content)
  | some data =>
    if truncAtNul path = [] then .error .indexError
    else
      match utf8Encode (truncAtNul path) with
      | none => .error (.unicodeEncodeError (truncAtNul path))
      | some _ => .ok (truncAtNul path, data)

/-- Model of `FileManager.create_zip()`: write one entry per `self.files.items()`
element, in dict iteration (insertion) order.  An exception from any
`writestr` propagates; the local buffer is then never returned, so the
result is all-or-nothing: either every entry, or an error. -/
def create_zip : Store → Except ZipErr (List ZipEntry)
  | [] => .ok []
  | (p, c) :: rest =>
    match writestrEntry p c with
    | .error e => .error e
    | .ok ent =>
      match create_zip rest with
      | .error e => .error e
      | .ok es => .ok (ent :: es)

/-- Wrapper viewing `create_zip` as a method call on the store state: the method body reads
`self.files` and never assigns to it, so the store component of the result
is the incoming store. -/
def create_zip_op (m : Store) : Except ZipErr (List ZipEntry) × Store :=
  (create_zip m, m)

/-- Running a sequence of `add_file(path, content)` calls from a store. -/
def runAddsFrom (m : Store) : List (PyStr × PyStr) → Store
  | [] => m
  | (p, c) :: ops => runAddsFrom (add_file p c m) ops

/-- Running a sequence of `add_file(path, content)` calls from the empty
store (the constructor sets `self.files = {}`). -/
def runAdds (ops : List (PyStr × PyStr)) : Store :=
  runAddsFrom [] ops

/-! ## Order lemmas for `pyStrLe` -/

theorem pyStrLe_total : ∀ a b : PyStr, pyStrLe a b = true ∨ pyStrLe b a = true
  | [], _ => Or.inl rfl
  | _ :: _, [] => Or.inr rfl
  | x :: s, y :: t => by
    simp only [pyStrLe]
    rcases Nat.lt_trichotomy x y with h | h | h
    · left; simp [h]
    · subst h
      simp only [if_neg (Nat.lt_irrefl x)]
      exact pyStrLe_total s t
    · right; simp [h, Nat.lt_asymm h]

theorem pyStrLe_trans :
    ∀ a b c : PyStr, pyStrLe a b = true → pyStrLe b c = true → pyStrLe a c = true
  | [], _, _, _, _ => rfl
  | _ :: _, [], _, hab, _ => by simp [pyStrLe] at hab
  | _ :: _, _ :: _, [], _, hbc => by simp [pyStrLe] at hbc
  | x :: s, y :: t, z :: u, hab, hbc => by
    simp only [pyStrLe] at hab hbc ⊢
    rcases Nat.lt_trichotomy x y with hxy | hxy | hxy
    · rcases Nat.lt_trichotomy y z with hyz | hyz | hyz
      · simp [Nat.lt_trans hxy hyz]
      · subst hyz; simp [hxy]
      · rw [if_neg (by omega), if_pos hyz] at hbc; exact absurd hbc (by simp)
    · subst hxy
      rw [if_neg (by omega), if_neg (by omega)] at hab
      rcases Nat.lt_trichotomy x z with hxz | hxz | hxz
      · simp [hxz]
      · subst hxz
        rw [if_neg (by omega), if_neg (by omega)] at hbc ⊢
        exact pyStrLe_trans s t u hab hbc
      · rw [if_neg (by omega), if_pos hxz] at hbc; exact absurd hbc (by simp)
    · rw [if_neg (by omega), if_pos hxy] at hab; exact absurd hab (by simp)

theorem pyStrLe_antisymm :
    ∀ a b : PyStr, pyStrLe a b = true → pyStrLe b a = true → a = b
  | [], [], _, _ => rfl
  | [], _ :: _, _, hba => by simp [pyStrLe] at hba
  | _ :: _, [], hab, _ => by simp [pyStrLe] at hab
  | x :: s, y :: t, hab, hba => by
    simp only [pyStrLe] at hab hba
    rcases Nat.lt_trichotomy x y with h | h | h
    · rw [if_neg (by omega), if_pos h] at hba; exact absurd hba (by simp)
    · subst h
      rw [if_neg (by omega), if_neg (by omega)] at hab hba
      rw [pyStrLe_antisymm s t hab hba]
    · rw [if_neg (by omega), if_pos h] at hab; exact absurd hab (by simp)

instance : IsTotal PyStr pathLe := ⟨pyStrLe_total⟩

instance : IsTrans PyStr pathLe := ⟨pyStrLe_trans⟩

instance : IsAntisymm PyStr pathLe := ⟨pyStrLe_antisymm⟩

/-! ## Dict lemmas -/

@[simp] theorem keys_nil : keys ([] : Store) = [] := rfl

@[simp] theorem keys_cons (e : PyStr × PyStr) (m : Store) :
    keys (e :: m) = e.1 :: keys m := rfl

theorem dictGet?_dictSet_self (k v : PyStr) (m : Store) :
    dictGet? k (dictSet k v m) = some v := by
  induction m with
  | nil => simp [dictSet, dictGet?]
  | cons e rest ih =>
    obtain ⟨k', v'⟩ := e
    by_cases h : k' = k
    · subst h; simp [dictSet, dictGet?]
    · simp [dictSet, dictGet?, h, ih]

theorem dictGet?_dictSet_ne (q k v : PyStr) (m : Store) (h : q ≠ k) :
    dictGet? q (dictSet k v m) = dictGet? q m := by
  have hne : ¬ k = q := fun hh => h hh.symm
  induction m with
  | nil => simp [dictSet, dictGet?, hne]
  | cons e rest ih =>
    obtain ⟨k', v'⟩ := e
    by_cases hk : k' = k
    · subst hk
      simp [dictSet, dictGet?, hne]
    · simp [dictSet, dictGet?, hk, ih]

theorem mem_keys_dictSet (q k v : PyStr) (m : Store) :
    q ∈ keys (dictSet k v m) ↔ q = k ∨ q ∈ keys m := by
  induction m with
  | nil => simp [dictSet]
  | cons e rest ih =>
    obtain ⟨k', v'⟩ := e
    by_cases h : k' = k
    · subst h
      simp [dictSet]
    · simp only [dictSet, if_neg h, keys_cons, List.mem_cons] at ih ⊢
      tauto

theorem WF_dictSet (k v : PyStr) (m : Store) (hw : WF m) : WF (dictSet k v m) := by
  induction m with
  | nil => simp [dictSet, WF]
  | cons e rest ih =>
    obtain ⟨k', v'⟩ := e
    simp only [WF, keys_cons, List.nodup_cons] at hw
    by_cases h : k' = k
    · subst h
      simpa [dictSet, WF] using hw
    · have hrest := ih hw.2
      simp only [dictSet, if_neg h, WF, keys_cons, List.nodup_cons]
      refine ⟨fun hmem => ?_, hrest⟩
      rcases (mem_keys_dictSet k' k v rest).1 hmem with rfl | hmem'
      · exact h rfl
      · exact hw.1 hmem'

theorem dictGet?_dictRemove_ne (q k : PyStr) (m : Store) (h : q ≠ k) :
    dictGet? q (dictRemove k m) = dictGet? q m := by
  have hne : ¬ k = q := fun hh => h hh.symm
  induction m with
  | nil => simp [dictRemove]
  | cons e rest ih =>
    obtain ⟨k', v'⟩ := e
    by_cases hk : k' = k
    · subst hk
      simp [dictRemove, dictGet?, hne]
    · simp [dictRemove, dictGet?, hk, ih]

theorem mem_keys_dictRemove (q k : PyStr) (m : Store) :
    q ∈ keys (dictRemove k m) → q ∈ keys m := by
  induction m with
  | nil => simp [dictRemove]
  | cons e rest ih =>
    obtain ⟨k', v'⟩ := e
    by_cases hk : k' = k
    · subst hk
      simp only [dictRemove, if_pos rfl, keys_cons, List.mem_cons]
      tauto
    · simp only [dictRemove, if_neg hk, keys_cons, List.mem_cons] at ih ⊢
      tauto

theorem not_mem_keys_dictRemove_self (k : PyStr) (m : Store) (hw : WF m) :
    k ∉ keys (dictRemove k m) := by
  induction m with
  | nil => simp [dictRemove]
  | cons e rest ih =>
    obtain ⟨k', v'⟩ := e
    simp only [WF, keys_cons, List.nodup_cons] at hw
    by_cases hk : k' = k
    · subst hk
      simpa [dictRemove] using hw.1
    · simp only [dictRemove, if_neg hk, keys_cons, List.mem_cons]
      push_neg
      exact ⟨fun hh => hk hh.symm, ih hw.2⟩

theorem dictGet?_eq_none_iff (k : PyStr) (m : Store) :
    dictGet? k m = none ↔ k ∉ keys m := by
  induction m with
  | nil => simp [dictGet?]
  | cons e rest ih =>
    obtain ⟨k', v'⟩ := e
    by_cases h : k' = k
    · subst h; simp [dictGet?]
    · have hne : ¬ k = k' := fun hh => h hh.symm
      simp only [dictGet?, if_neg h, keys_cons, List.mem_cons]
      rw [ih]
      simp [hne]

theorem dictGet?_isSome_iff (k : PyStr) (m : Store) :
    (dictGet? k m).isSome = true ↔ k ∈ keys m := by
  rcases h : dictGet? k m with _ | v
  · simp [(dictGet?_eq_none_iff k m).1 h]
  · simp only [Option.isSome_some, true_iff]
    by_contra hmem
    rw [(dictGet?_eq_none_iff k m).2 hmem] at h
    cases h

/-! ## `get_all_files` lemmas -/

theorem mem_get_all_files (p : PyStr) (m : Store) :
    p ∈ get_all_files m ↔ p ∈ keys m :=
  List.mem_insertionSort pathLe

theorem sorted_get_all_files (m : Store) : (get_all_files m).Sorted pathLe :=
  List.sorted_insertionSort pathLe (keys m)

theorem nodup_get_all_files (m : Store) (hw : WF m) : (get_all_files m).Nodup :=
  ((List.perm_insertionSort pathLe (keys m)).symm).nodup hw

theorem get_all_files_eq_of_same_keys (m₁ m₂ : Store) (h₁ : WF m₁) (h₂ : WF m₂)
    (h : ∀ p, p ∈ keys m₁ ↔ p ∈ keys m₂) :
    get_all_files m₁ = get_all_files m₂ := by
  refine List.eq_of_perm_of_sorted ?_ (sorted_get_all_files m₁) (sorted_get_all_files m₂)
  exact (List.perm_insertionSort pathLe (keys m₁)).trans
    (((List.perm_ext_iff_of_nodup h₁ h₂).2 h).trans
      (List.perm_insertionSort pathLe (keys m₂)).symm)

/-! ## `runAdds` lemmas -/

theorem runAddsFrom_spec (ops : List (PyStr × PyStr)) (m : Store) (hw : WF m) :
    WF (runAddsFrom m ops) ∧
      ∀ p, p ∈ keys (runAddsFrom m ops) ↔ p ∈ ops.map Prod.fst ∨ p ∈ keys m := by
  induction ops generalizing m with
  | nil => simpa [runAddsFrom] using hw
  | cons op ops ih =>
    obtain ⟨q, c⟩ := op
    have h1 : WF (add_file q c m) := WF_dictSet q c m hw
    obtain ⟨hwf, hmem⟩ := ih (add_file q c m) h1
    refine ⟨hwf, fun p => ?_⟩
    show p ∈ keys (runAddsFrom (add_file q c m) ops) ↔ _
    rw [hmem p]
    simp only [add_file, mem_keys_dictSet, List.map_cons, List.mem_cons]
    tauto

/-! ## `create_zip` shape lemmas -/

/-- The bytes an encodable string encodes to (`[]` on the unencodable,
which never occurs where this is used). -/
def utf8B (s : PyStr) : Bytes := (utf8Encode s).getD []

theorem truncAtNul_eq_self (p : PyStr) (h : (0 : Nat) ∉ p) : truncAtNul p = p := by
  induction p with
  | nil => rfl
  | cons c cs ih =>
    simp only [List.mem_cons, not_or] at h
    have hc : ¬ c = 0 := fun hh => h.1 hh.symm
    simp [truncAtNul, hc, ih h.2]

theorem writestrEntry_ok (p c : PyStr) (ent : ZipEntry)
    (h : writestrEntry p c = .ok ent) :
    ent = (truncAtNul p, utf8B c) ∧ truncAtNul p ≠ [] ∧
      (utf8Encode c).isSome = true ∧ (utf8Encode (truncAtNul p)).isSome = true := by
  unfold writestrEntry at h
  split at h
  · cases h
  · rename_i data hdata
    split at h
    · cases h
    · rename_i hname0
      split at h
      · cases h
      · rename_i nb hname
        injection h with h'
        subst h'
        exact ⟨by simp [utf8B, hdata], hname0, by simp [hdata], by simp [hname]⟩

theorem create_zip_ok_shape (m : Store) (out : List ZipEntry)
    (h : create_zip m = .ok out) :
    out = m.map (fun pc => (truncAtNul pc.1, utf8B pc.2)) ∧
      ∀ pc ∈ m, truncAtNul pc.1 ≠ [] ∧ (utf8Encode pc.2).isSome = true ∧
        (utf8Encode (truncAtNul pc.1)).isSome = true := by
  induction m generalizing out with
  | nil =>
    refine ⟨?_, by simp⟩
    simpa [create_zip] using h.symm
  | cons e rest ih =>
    obtain ⟨p, c⟩ := e
    unfold create_zip at h
    split at h
    · cases h
    · rename_i ent hent
      split at h
      · cases h
      · rename_i es hes
        injection h with h'
        obtain ⟨hshape, henc⟩ := ih es hes
        obtain ⟨hent', hn0, hc, hp⟩ := writestrEntry_ok p c ent hent
        subst h'
        constructor
        · simp [hshape, hent']
        · intro pc hmem
          rcases List.mem_cons.1 hmem with rfl | hmem'
          · exact ⟨hn0, hc, hp⟩
          · exact henc pc hmem'

theorem create_zip_error_of_bad (m : Store)
    (h : (∃ p ∈ keys m, truncAtNul p = []) ∨ (∃ pc ∈ m, utf8Encode pc.2 = none)) :
    ∃ e, create_zip m = .error e := by
  rcases hz : create_zip m with e | out
  · exact ⟨e, rfl⟩
  · exfalso
    rcases h with ⟨p, hp, hbad⟩ | ⟨pc, hmem, hbad⟩
    · obtain ⟨pc, hmem, hfst⟩ := List.mem_map.1 hp
      have hn0 := ((create_zip_ok_shape m out hz).2 pc hmem).1
      rw [hfst] at hn0
      exact hn0 hbad
    · have hs := ((create_zip_ok_shape m out hz).2 pc hmem).2.1
      rw [hbad] at hs
      cases hs

/-! ## Claims about the store operations -/

/-- C2: for every sequence of `add_file` calls starting from the empty
store, `get_all_files` returns exactly the set of distinct paths written,
sorted lexicographically by code-point order, and the result is the same
for any two insertion orders producing the same path set. -/
theorem c2_get_all_files_sorted_distinct (ops ops' : List (PyStr × PyStr))
    (h : ∀ p, p ∈ ops.map Prod.fst ↔ p ∈ ops'.map Prod.fst) :
    (get_all_files (runAdds ops)).Sorted pathLe ∧
    (get_all_files (runAdds ops)).Nodup ∧
    (∀ p, p ∈ get_all_files (runAdds ops) ↔ p ∈ ops.map Prod.fst) ∧
    get_all_files (runAdds ops) = get_all_files (runAdds ops') := by
  have hwnil : WF ([] : Store) := List.nodup_nil
  obtain ⟨hw, hm⟩ := runAddsFrom_spec ops [] hwnil
  obtain ⟨hw', hm'⟩ := runAddsFrom_spec ops' [] hwnil
  refine ⟨sorted_get_all_files _, nodup_get_all_files _ hw, fun p => ?_, ?_⟩
  · rw [mem_get_all_files, runAdds, hm p]
    simp
  · rw [runAdds, runAdds]
    refine get_all_files_eq_of_same_keys _ _ hw hw' (fun p => ?_)
    rw [hm p, hm' p, h p]

/-- Witness for C2 at a concrete pair of insertion orders. -/
theorem c2_get_all_files_sorted_distinct_witness :
    (get_all_files (runAdds [([98], [120]), ([97], [121])])).Sorted pathLe ∧
    (get_all_files (runAdds [([98], [120]), ([97], [121])])).Nodup ∧
    (∀ p, p ∈ get_all_files (runAdds [([98], [120]), ([97], [121])]) ↔
      p ∈ ([([98], [120]), ([97], [121])] : List (PyStr × PyStr)).map Prod.fst) ∧
    get_all_files (runAdds [([98], [120]), ([97], [121])]) =
      get_all_files (runAdds [([97], [121]), ([98], [120])]) :=
  c2_get_all_files_sorted_distinct _ _ (by intro p; simp; tauto)

/-- C4: `update_file` returns `false` and leaves the mapping unchanged
when the path is not in `get_all_files()`; it returns `true` and replaces
the content at that path, leaving every other entry unchanged, when the
path is in `get_all_files()`. -/
theorem c4_update_file_spec (m : Store) (p c : PyStr) :
    (p ∉ get_all_files m → update_file p c m = (false, m)) ∧
    (p ∈ get_all_files m →
      (update_file p c m).1 = true ∧
      dictGet? p (update_file p c m).2 = some c ∧
      ∀ q, q ≠ p → dictGet? q (update_file p c m).2 = dictGet? q m) := by
  constructor
  · intro habs
    rw [mem_get_all_files] at habs
    simp [update_file, (dictGet?_eq_none_iff p m).2 habs]
  · intro hp
    rw [mem_get_all_files] at hp
    have hs : (dictGet? p m).isSome = true := (dictGet?_isSome_iff p m).2 hp
    simp only [update_file, hs, if_true]
    exact ⟨trivial, dictGet?_dictSet_self p c m, fun q hq => dictGet?_dictSet_ne q p c m hq⟩

/-- Witness for C4: update of a present path succeeds and rewrites the
content; update of an absent path is a no-op returning `false`. -/
theorem c4_update_file_spec_witness :
    (update_file [97] [99] [([97], [98])]).1 = true ∧
    dictGet? [97] (update_file [97] [99] [([97], [98])]).2 = some [99] ∧
    update_file [100] [99] [([97], [98])] = (false, [([97], [98])]) :=
  ⟨((c4_update_file_spec [([97], [98])] [97] [99]).2 (by decide)).1,
   ((c4_update_file_spec [([97], [98])] [97] [99]).2 (by decide)).2.1,
   (c4_update_file_spec [([97], [98])] [100] [99]).1 (by decide)⟩

/-- C5: `delete_file` returns `false` and leaves the store unchanged when
the path is absent; it returns `true` and removes exactly that entry when
present, after which the path is no longer in `get_all_files()`. -/
theorem c5_delete_file_spec (m : Store) (p : PyStr) (hw : WF m) :
    (p ∉ get_all_files m → delete_file p m = (false, m)) ∧
    (p ∈ get_all_files m →
      (delete_file p m).1 = true ∧
      p ∉ get_all_files (delete_file p m).2 ∧
      ∀ q, q ≠ p → dictGet? q (delete_file p m).2 = dictGet? q m) := by
  constructor
  · intro habs
    rw [mem_get_all_files] at habs
    simp [delete_file, (dictGet?_eq_none_iff p m).2 habs]
  · intro hp
    rw [mem_get_all_files] at hp
    have hs : (dictGet? p m).isSome = true := (dictGet?_isSome_iff p m).2 hp
    simp only [delete_file, hs, if_true]
    refine ⟨trivial, ?_, fun q hq => dictGet?_dictRemove_ne q p m hq⟩
    rw [mem_get_all_files]
    exact not_mem_keys_dictRemove_self p m hw

/-- Witness for C5: deleting a present path succeeds and removes it;
deleting an absent path returns `false` and changes nothing. -/
theorem c5_delete_file_spec_witness :
    (delete_file [97] [([97], [98])]).1 = true ∧
    ([97] : PyStr) ∉ get_all_files (delete_file [97] [([97], [98])]).2 ∧
    delete_file [109] [([97], [98])] = (false, [([97], [98])]) :=
  ⟨((c5_delete_file_spec [([97], [98])] [97] (by decide)).2 (by decide)).1,
   ((c5_delete_file_spec [([97], [98])] [97] (by decide)).2 (by decide)).2.1,
   (c5_delete_file_spec [([97], [98])] [109] (by decide)).1 (by decide)⟩

/-- C7: `add_file` is total: it inserts when the path is absent and
overwrites when present, keys stay distinct, a subsequent `get_file`
returns the most recently written content, and other entries are
untouched. -/
theorem c7_add_file_spec (m : Store) (p c : PyStr) (hw : WF m) :
    WF (add_file p c m) ∧
    get_file p (add_file p c m) = c ∧
    (∀ q, q ∈ get_all_files (add_file p c m) ↔ q = p ∨ q ∈ get_all_files m) ∧
    (∀ q, q ≠ p → dictGet? q (add_file p c m) = dictGet? q m) := by
  refine ⟨WF_dictSet p c m hw, ?_, fun q => ?_, fun q hq => dictGet?_dictSet_ne q p c m hq⟩
  · simp [get_file, add_file, dictGet?_dictSet_self]
  · rw [mem_get_all_files, mem_get_all_files]
    exact mem_keys_dictSet q p c m

/-- Witness for C7 at a concrete store. -/
theorem c7_add_file_spec_witness :
    WF (add_file [97] [120] []) ∧ get_file [97] (add_file [97] [120] []) = [120] :=
  ⟨(c7_add_file_spec [] [97] [120] (by decide)).1,
   (c7_add_file_spec [] [97] [120] (by decide)).2.1⟩

/-- C8: `get_file` returns the stored content for a present path and the
empty string for an absent one.  All store operations are total Lean
functions here, mirroring that the Python methods raise no exception:
absence degrades to `false` or the empty-content sentinel. -/
theorem c8_get_file_spec (m : Store) (p : PyStr) :
    (∀ c, dictGet? p m = some c → get_file p m = c) ∧
    (p ∉ get_all_files m → get_file p m = []) := by
  constructor
  · intro c hc
    simp [get_file, hc]
  · intro habs
    rw [mem_get_all_files] at habs
    simp [get_file, (dictGet?_eq_none_iff p m).2 habs]

/-- Witness for C8: a present path returns its content, an absent path
returns the empty string. -/
theorem c8_get_file_spec_witness :
    get_file [97] [([97], [104])] = [104] ∧ get_file [98] [([97], [104])] = [] :=
  ⟨(c8_get_file_spec [([97], [104])] [97]).1 [104] (by decide),
   (c8_get_file_spec [([97], [104])] [98]).2 (by decide)⟩

/-- C9: `create_zip` is a pure function of the store snapshot: the store
after the call is the store before it (whether the export succeeds or
fails), the observable store behaviour is unchanged, and a second export
of the unmutated store returns the same result. -/
theorem c9_create_zip_pure (m : Store) :
    (create_zip_op m).2 = m ∧
    (create_zip_op m).1 = create_zip m ∧
    get_all_files (create_zip_op m).2 = get_all_files m ∧
    (∀ p, get_file p (create_zip_op m).2 = get_file p m) ∧
    (create_zip_op ((create_zip_op m).2)).1 = (create_zip_op m).1 :=
  ⟨rfl, rfl, rfl, fun _ => rfl, rfl⟩

/-- C10: `get_file` cannot distinguish a path stored with empty content
from an absent path: both return the empty string. -/
theorem c10_get_file_empty_indistinguishable (m : Store) (p q : PyStr)
    (hp : dictGet? p m = some []) (hq : q ∉ get_all_files m) :
    get_file p m = get_file q m := by
  rw [mem_get_all_files] at hq
  simp [get_file, hp, (dictGet?_eq_none_iff q m).2 hq]

/-- Witness for C10 at a concrete store. -/
theorem c10_get_file_empty_indistinguishable_witness :
    get_file [97] [([97], [])] = get_file [98] [([97], [])] :=
  c10_get_file_empty_indistinguishable [([97], [])] [97] [98] (by decide) (by decide)

/-! ## Claims about the export operation -/

/-- Refutation of C1 as stated: the claim quantifies over every store
state, but `zipfile` truncates entry names at the first NUL code point,
so the store mapping the path "a\x00b" (code points 97, 0, 98) to "x"
exports successfully to an archive whose single entry is named "a" — the
entry-path set differs from the store's key set. -/
theorem c1_claim_counterexample :
    ¬ (∀ out, create_zip [([97, 0, 98], [120])] = Except.ok out →
        ∀ p, p ∈ out.map Prod.fst ↔ p ∈ keys [([97, 0, 98], [120])]) := by
  intro h
  have h2 := (h [([97], [120])] rfl [97]).1 (by decide)
  exact absurd h2 (by decide)

/-- C1 (amended): for every store state whose paths contain no NUL code
point, a successful `create_zip` decodes to exactly the (path, content)
pairs of the store: the entry-name set equals the key set, every stored
pair appears as an entry whose bytes are the UTF-8 encoding of its
content, and every entry arises from a stored pair this way. -/
theorem c1_roundtrip_exact (m : Store) (out : List ZipEntry)
    (hnul : ∀ p ∈ keys m, (0 : Nat) ∉ p)
    (h : create_zip m = .ok out) :
    (∀ p, p ∈ out.map Prod.fst ↔ p ∈ keys m) ∧
    (∀ p c, (p, c) ∈ m → ∃ b, utf8Encode c = some b ∧ (p, b) ∈ out) ∧
    (∀ p b, (p, b) ∈ out → ∃ c, (p, c) ∈ m ∧ utf8Encode c = some b) := by
  obtain ⟨hshape, henc⟩ := create_zip_ok_shape m out h
  have htrunc : ∀ p c, (p, c) ∈ m → truncAtNul p = p := fun p c hm =>
    truncAtNul_eq_self p (hnul p (List.mem_map_of_mem Prod.fst hm))
  subst hshape
  refine ⟨fun p => ?_, fun p c hm => ?_, fun p b hb => ?_⟩
  · rw [List.map_map]
    simp only [keys, List.mem_map, Function.comp_apply]
    constructor
    · rintro ⟨⟨p1, c1⟩, hm, hp⟩
      exact ⟨(p1, c1), hm, (htrunc p1 c1 hm).symm.trans hp⟩
    · rintro ⟨⟨p1, c1⟩, hm, hp⟩
      exact ⟨(p1, c1), hm, (htrunc p1 c1 hm).trans hp⟩
  · have hs := (henc (p, c) hm).2.1
    obtain ⟨b, hb⟩ := Option.isSome_iff_exists.1 hs
    refine ⟨b, hb, ?_⟩
    have hmem : (truncAtNul p, utf8B c) ∈
        m.map (fun pc => (truncAtNul pc.1, utf8B pc.2)) :=
      List.mem_map_of_mem _ hm
    rw [htrunc p c hm] at hmem
    simpa [utf8B, hb] using hmem
  · obtain ⟨⟨p1, c1⟩, hm, hpc⟩ := List.mem_map.1 hb
    simp only [Prod.mk.injEq] at hpc
    obtain ⟨hp1, hb1⟩ := hpc
    have hs := (henc (p1, c1) hm).2.1
    obtain ⟨x, hx⟩ := Option.isSome_iff_exists.1 hs
    refine ⟨c1, ?_, ?_⟩
    · rwa [← hp1, htrunc p1 c1 hm]
    · rw [← hb1]
      simp [utf8B, hx]

/-- Witness for C1 (amended) at the store mapping "p" to "hi". -/
theorem c1_roundtrip_exact_witness :
    (∀ p, p ∈ ([([112], [104, 105])] : List ZipEntry).map Prod.fst ↔
      p ∈ keys [([112], [104, 105])]) ∧
    (∀ p c, (p, c) ∈ ([([112], [104, 105])] : Store) →
      ∃ b, utf8Encode c = some b ∧ (p, b) ∈ ([([112], [104, 105])] : List ZipEntry)) ∧
    (∀ p b, (p, b) ∈ ([([112], [104, 105])] : List ZipEntry) →
      ∃ c, (p, c) ∈ ([([112], [104, 105])] : Store) ∧ utf8Encode c = some b) :=
  c1_roundtrip_exact [([112], [104, 105])] [([112], [104, 105])] (by decide) rfl

/-- Refutation of C3 as stated: on the store mapping the empty path to
"h", `create_zip` does fail — `writestr` raises a bare
`IndexError: string index out of range` at `zinfo.filename[-1]` — but the
raised error identifies nothing: it carries no path at all, so the export
does not fail "with an Export error identifying the offending path". -/
theorem c3_claim_counterexample :
    ¬ (∃ e, create_zip [(([] : PyStr), [104])] = Except.error e ∧
        errOffender e = some ([] : PyStr)) := by
  rintro ⟨e, he, hoff⟩
  rw [show create_zip [(([] : PyStr), [104])] =
      Except.error ZipErr.indexError from rfl] at he
  injection he with h'
  rw [← h'] at hoff
  cases hoff

/-- C3 (amended): if any stored path sanitizes to the empty member name
(the empty path, or a path truncated to empty at a leading NUL), or any
stored content cannot be encoded to UTF-8, then `create_zip` fails — with
a bare `IndexError`, or a `UnicodeEncodeError` carrying the offending
string rather than its path — no partial archive is returned, and the
store state is unaffected. -/
theorem c3_export_failure_spec (m : Store)
    (h : (∃ p ∈ keys m, truncAtNul p = []) ∨ (∃ pc ∈ m, utf8Encode pc.2 = none)) :
    (∃ e, create_zip m = Except.error e) ∧ (create_zip_op m).2 = m :=
  ⟨create_zip_error_of_bad m h, rfl⟩

/-- Witness for C3 (amended): the store mapping the empty path to "h"
makes the export fail and leaves the store unchanged. -/
theorem c3_export_failure_spec_witness :
    (∃ e, create_zip [(([] : PyStr), [104])] = Except.error e) ∧
    (create_zip_op [(([] : PyStr), [104])]).2 = [(([] : PyStr), [104])] :=
  c3_export_failure_spec [(([] : PyStr), [104])] (Or.inl ⟨[], by decide, rfl⟩)

/-- Refutation of C6 as stated: `create_zip` iterates `self.files.items()`
in dict insertion order, not in `get_all_files()` order.  Inserting "b"
before "a" yields an archive whose entry sequence is ["b", "a"], while
`get_all_files()` is ["a", "b"]. -/
theorem c6_claim_counterexample :
    ¬ (∀ out, create_zip [([98], [120]), ([97], [121])] = Except.ok out →
        out.map Prod.fst = get_all_files [([98], [120]), ([97], [121])]) := by
  intro h
  have h2 := h [([98], [120]), ([97], [121])] rfl
  exact absurd h2 (by decide)

/-- C6 (amended): `create_zip` writes the entries in the store's insertion
(dict iteration) order: the entry-name sequence of a successful archive is
the store's key sequence, each key truncated at its first NUL code point
— not the lexicographically sorted `get_all_files()` sequence. -/
theorem c6_entries_in_insertion_order (m : Store) (out : List ZipEntry)
    (h : create_zip m = .ok out) :
    out.map Prod.fst = (keys m).map truncAtNul := by
  obtain ⟨hshape, _⟩ := create_zip_ok_shape m out h
  subst hshape
  simp [keys, List.map_map, Function.comp_def]

/-- Witness for C6 (amended) at a two-entry store inserted out of
lexicographic order. -/
theorem c6_entries_in_insertion_order_witness :
    ([([98], [120]), ([97], [121])] : List ZipEntry).map Prod.fst =
      (keys [([98], [120]), ([97], [121])]).map truncAtNul :=
  c6_entries_in_insertion_order [([98], [120]), ([97], [121])]
    [([98], [120]), ([97], [121])] rfl
